import Mathlib

/-!
Verification of mastodon/webpush-fcm-relay against its natural-language
specification.  The Go source (src/webpush-fcm-relay.go) is shallowly
embedded below: strings are lists of characters, bytes are `Fin 256`,
the handler's early returns become nested matches, and the out-of-range
index in `parseKeyValues` is modelled by an explicit failure value.
-/

namespace Relay

/-- Strings, modelled as lists of characters. -/
abbrev Str := List Char

/-- Bytes of the Go `[]byte` slices. -/
abbrev Byte := Fin 256

/-- The fixed 85-character alphabet `z85digits`
(src/webpush-fcm-relay.go:210). -/
def z85digits : Str :=
  "0123456789abcdefghijklmnopqrstuvwxyzABCDEFGHIJKLMNOPQRSTUVWXYZ.-:+=^!/*?&<>()[]\x7b\x7d@%$#".toList

/-- Indexing into the alphabet, `z85digits[n]`.  Every index produced by
`encode85` is a residue mod 85, hence in range; the default is irrelevant. -/
def z85char (n : Nat) : Char := z85digits.getD n '0'

/-- The digit-emission loop of `encode85`: `n` rounds of
`digit = value % 85; value = value / 85`, least-significant digit first
(src/webpush-fcm-relay.go:228-231 and 245-248). -/
def lsDigits : Nat → Nat → List Nat
  | _, 0 => []
  | v, n + 1 => v % 85 :: lsDigits (v / 85) n

/-- Go's `binary.BigEndian.Uint32(src)` =
`uint32(b[3]) | uint32(b[2])<<8 | uint32(b[1])<<16 | uint32(b[0])<<24`
(src/webpush-fcm-relay.go:226). -/
def beUint32 (b0 b1 b2 b3 : Byte) : Nat :=
  b3.val ||| b2.val <<< 8 ||| b1.val <<< 16 ||| b0.val <<< 24

/-- The remainder accumulator of `encode85`: `value *= 256; value |= int(b)`
over the suffix bytes (src/webpush-fcm-relay.go:238-243). -/
def suffixValue (bs : List Byte) : Nat :=
  bs.foldl (fun v b => v * 256 ||| b.val) 0

/-- One block's five output characters: the loop writes `dest[4-i]` on round
`i`, so the emitted digits appear in reverse (src/webpush-fcm-relay.go:228-231). -/
def blockOut (v : Nat) : List Char := ((lsDigits v 5).reverse).map z85char

/-- The remainder's `suffixLength+1` output characters, written to
`dest[suffixLength-i]` on round `i` (src/webpush-fcm-relay.go:237-249). -/
def suffixOut (bs : List Byte) : List Char :=
  if bs.length = 0 then []
  else ((lsDigits (suffixValue bs) (bs.length + 1)).reverse).map z85char

/-- Shallow embedding of `encode85` (src/webpush-fcm-relay.go:212-252):
the block loop processes `len/4` four-byte blocks from the front, then the
`len%4` remainder bytes are encoded by the suffix branch. -/
def encode85 : List Byte → List Char
  | b0 :: b1 :: b2 :: b3 :: rest => blockOut (beUint32 b0 b1 b2 b3) ++ encode85 rest
  | rest => suffixOut rest

/-- Reference digit emission, following the spec's words: the output is the
base-85 expansion with the most-significant digit first. -/
def msDigits (n v : Nat) : List Nat :=
  (List.range n).map (fun j => v / 85 ^ (n - 1 - j) % 85)

/-- Reference block value, following the spec's words: the 4 bytes read as a
big-endian unsigned 32-bit integer. -/
def refBlockVal (b0 b1 b2 b3 : Byte) : Nat :=
  b0.val * 2 ^ 24 + b1.val * 2 ^ 16 + b2.val * 2 ^ 8 + b3.val

/-- Reference remainder value, following the spec's words: the 1-3 remaining
bytes accumulated big-endian. -/
def refSuffixVal (bs : List Byte) : Nat :=
  bs.foldl (fun a b => a * 256 + b.val) 0

/-- Reference base-85 expansion, following the spec's words: each complete
4-byte block yields 5 characters, most-significant digit first; a remainder
of r bytes yields r+1 characters, most-significant digit first. -/
def refEncode85 : List Byte → List Char
  | b0 :: b1 :: b2 :: b3 :: rest =>
    (msDigits 5 (refBlockVal b0 b1 b2 b3)).map z85char ++ refEncode85 rest
  | [] => []
  | rest => (msDigits (rest.length + 1) (refSuffixVal rest)).map z85char

example : encode85 [] = [] := by decide
example : encode85 [0, 0, 0, 0] = ['0', '0', '0', '0', '0'] := by decide
example : encode85 [255] = ['3', '0'] := by decide
example : refEncode85 [255] = ['3', '0'] := by decide
example : refEncode85 [0, 0, 0, 0, 255] = ['0', '0', '0', '0', '0', '3', '0'] := by decide

/-- Disjoint bitwise-or is addition: the bridge between Go's `|`-accumulation
and plain arithmetic. -/
lemma lor_shiftLeft_eq_add {k x : Nat} (hx : x < 2 ^ k) (a : Nat) :
    x ||| a <<< k = a * 2 ^ k + x := by
  rw [Nat.lor_comm, Nat.shiftLeft_eq, Nat.mul_comm a (2 ^ k),
    ← Nat.mul_add_lt_is_or hx a]

lemma beUint32_eq (b0 b1 b2 b3 : Byte) :
    beUint32 b0 b1 b2 b3 = refBlockVal b0 b1 b2 b3 := by
  have h0 := b0.isLt
  have h1 := b1.isLt
  have h2 := b2.isLt
  have h3 := b3.isLt
  unfold beUint32 refBlockVal
  rw [lor_shiftLeft_eq_add (k := 8) (by omega) b2.val,
    lor_shiftLeft_eq_add (k := 16) (by omega) b1.val,
    lor_shiftLeft_eq_add (k := 24) (by omega) b0.val]
  ring

lemma mul256_lor_eq_add (v : Nat) (b : Byte) : v * 256 ||| b.val = v * 256 + b.val := by
  have hb : b.val < 2 ^ 8 := by have := b.isLt; omega
  rw [show v * 256 = 2 ^ 8 * v by ring, ← Nat.mul_add_lt_is_or hb v]

lemma suffixValue_eq (bs : List Byte) : suffixValue bs = refSuffixVal bs := by
  unfold suffixValue refSuffixVal
  suffices h : ∀ v : Nat, bs.foldl (fun v b => v * 256 ||| b.val) v
      = bs.foldl (fun a b => a * 256 + b.val) v from h 0
  induction bs with
  | nil => intro v; rfl
  | cons b bs ih =>
    intro v
    simp only [List.foldl_cons, mul256_lor_eq_add, ih]

lemma lsDigits_length : ∀ (v n : Nat), (lsDigits v n).length = n
  | _, 0 => rfl
  | v, n + 1 => by simp [lsDigits, lsDigits_length (v / 85) n]

/-- The digit loop writes its digits in reverse order, which is exactly the
most-significant-first base-85 expansion. -/
lemma lsDigits_reverse : ∀ (n v : Nat), (lsDigits v n).reverse = msDigits n v := by
  intro n
  induction n with
  | zero => intro v; simp [lsDigits, msDigits]
  | succ n ih =>
    intro v
    simp only [lsDigits, List.reverse_cons, ih (v / 85), msDigits]
    rw [List.range_succ, List.map_append]
    congr 1
    · apply List.map_congr_left
      intro j hj
      have hjn : j < n := List.mem_range.mp hj
      have hpow : (85 : Nat) ^ (n - j) = 85 * 85 ^ (n - 1 - j) := by
        rw [← pow_succ']
        congr 1
        omega
      rw [Nat.div_div_eq_div_mul, ← hpow, show n + 1 - 1 - j = n - j by omega]
    · simp

lemma suffixOut_eq (bs : List Byte) (h : bs ≠ []) :
    suffixOut bs = (msDigits (bs.length + 1) (refSuffixVal bs)).map z85char := by
  unfold suffixOut
  rw [if_neg (by simpa using h), lsDigits_reverse, suffixValue_eq]

/-- Every byte sequence encodes to its reference base-85 expansion. -/
lemma encode85_refines : ∀ bs : List Byte, encode85 bs = refEncode85 bs
  | b0 :: b1 :: b2 :: b3 :: rest => by
    have ih := encode85_refines rest
    show blockOut (beUint32 b0 b1 b2 b3) ++ encode85 rest
        = (msDigits 5 (refBlockVal b0 b1 b2 b3)).map z85char ++ refEncode85 rest
    rw [ih, blockOut, lsDigits_reverse, beUint32_eq]
  | [] => rfl
  | [a] => suffixOut_eq [a] (by simp)
  | [a, b] => suffixOut_eq [a, b] (by simp)
  | [a, b, c] => suffixOut_eq [a, b, c] (by simp)

lemma encode85_length_aux :
    ∀ bs : List Byte, (encode85 bs).length =
      5 * (bs.length / 4) + (if bs.length % 4 > 0 then bs.length % 4 + 1 else 0)
  | b0 :: b1 :: b2 :: b3 :: rest => by
    have ih := encode85_length_aux rest
    show (blockOut (beUint32 b0 b1 b2 b3) ++ encode85 rest).length = _
    simp only [List.length_append, blockOut, List.length_map, List.length_reverse,
      lsDigits_length, ih, List.length_cons]
    have hmod : (rest.length + 1 + 1 + 1 + 1) % 4 = rest.length % 4 := by omega
    have hdiv : (rest.length + 1 + 1 + 1 + 1) / 4 = rest.length / 4 + 1 := by omega
    rw [hmod, hdiv]
    by_cases h : rest.length % 4 > 0 <;> simp [h] <;> omega
  | [] => by simp [encode85, suffixOut]
  | [a] => by
    show (suffixOut [a]).length = _
    simp [suffixOut, lsDigits_length]
  | [a, b] => by
    show (suffixOut [a, b]).length = _
    simp [suffixOut, lsDigits_length]
  | [a, b, c] => by
    show (suffixOut [a, b, c]).length = _
    simp [suffixOut, lsDigits_length]

/-- C1: for every byte sequence, `encode85` equals the reference base-85
expansion (4-byte blocks read big-endian, 5 digits most-significant first;
a 1-3 byte remainder accumulated big-endian, remainder+1 digits
most-significant first, over the fixed 85-character alphabet); in
particular the three literal vectors hold. -/
theorem encode85_matches_reference :
    (∀ bs : List Byte, encode85 bs = refEncode85 bs) ∧
    encode85 [] = [] ∧
    encode85 [0, 0, 0, 0] = ['0', '0', '0', '0', '0'] ∧
    encode85 [255] = ['3', '0'] :=
  ⟨encode85_refines, by decide, by decide, by decide⟩

/-- C2: the encoded length is `5*floor(n/4)` plus `n%4 + 1` when `n%4 > 0`;
the empty input yields the empty string. -/
theorem encode85_length_law :
    (∀ bs : List Byte, (encode85 bs).length =
      5 * (bs.length / 4) + (if bs.length % 4 > 0 then bs.length % 4 + 1 else 0)) ∧
    encode85 [] = [] :=
  ⟨encode85_length_aux, by decide⟩

/-- Go's `strings.Split(s, sep)` for a single-character separator: splits at
every occurrence, keeping empty fields (`Split("", "/") = [""]`). -/
def splitChar (sep : Char) : Str → List Str
  | [] => [[]]
  | c :: cs =>
    if c = sep then [] :: splitChar sep cs
    else
      match splitChar sep cs with
      | g :: gs => (c :: g) :: gs
      | [] => [[c]]

/-- Go's `strings.FieldsFunc(values, c == ';')` keeps only the maximal runs of
non-separator characters: split on `;` and drop empty fields
(src/webpush-fcm-relay.go:195-199). -/
def entryList (values : Str) : List Str :=
  (splitChar ';' values).filter (fun e => e ≠ [])

/-- The loop body of `parseKeyValues` (src/webpush-fcm-relay.go:202-205):
`parts := strings.Split(entry, "="); m[parts[0]] = parts[1]`.  An entry with
no `=` makes `parts[1]` an out-of-range index — Go panics — modelled by
`none`.  The map is an association list in insertion order; lookups take the
last binding, matching Go map overwrite. -/
def insertEntries : List Str → List (Str × Str) → Option (List (Str × Str))
  | [], m => some m
  | e :: es, m =>
    match splitChar '=' e with
    | p0 :: p1 :: _ => insertEntries es (m ++ [(p0, p1)])
    | _ => none

/-- Shallow embedding of `parseKeyValues` (src/webpush-fcm-relay.go:194-208);
`none` models the out-of-range panic on an entry without `=`. -/
def parseKeyValues (values : Str) : Option (List (Str × Str)) :=
  insertEntries (entryList values) []

/-- Go map lookup over the insertion-ordered association list: the last
binding for a key wins, as repeated `m[k] = v` assignments overwrite. -/
def mlookup : List (Str × Str) → Str → Option Str
  | [], _ => none
  | (a, b) :: rest, k =>
    match mlookup rest k with
    | some v => some v
    | none => if a = k then some b else none

/-- The base64url (no padding) alphabet of Go's `base64.RawURLEncoding`:
`A-Z`, `a-z`, `0-9`, `-`, `_`; anything else is a decode error. -/
def b64Index (c : Char) : Option Nat :=
  let n := c.toNat
  if 65 ≤ n ∧ n ≤ 90 then some (n - 65)
  else if 97 ≤ n ∧ n ≤ 122 then some (n - 97 + 26)
  else if 48 ≤ n ∧ n ≤ 57 then some (n - 48 + 52)
  else if n = 45 then some 62
  else if n = 95 then some 63
  else none

/-- Map every character through the base64url alphabet, failing on the first
invalid character. -/
def b64Vals : Str → Option (List Nat)
  | [] => some []
  | c :: cs =>
    match b64Index c, b64Vals cs with
    | some v, some vs => some (v :: vs)
    | _, _ => none

/-- Byte construction (values produced below are already < 256). -/
def byteOfNat (n : Nat) : Byte := Fin.ofNat n

/-- Regroup 6-bit values into bytes: each full quantum of 4 values yields 3
bytes; a final quantum of 2 or 3 values yields 1 or 2 bytes; a final quantum
of 1 value is a decode error (Go's `CorruptInputError`).  Trailing bits are
discarded, as Go's non-strict decoder does. -/
def dechunk : List Nat → Option (List Byte)
  | [] => some []
  | [_] => none
  | [a, b] => some [byteOfNat (a * 4 + b / 16)]
  | [a, b, c] => some [byteOfNat (a * 4 + b / 16), byteOfNat (b % 16 * 16 + c / 4)]
  | a :: b :: c :: d :: rest =>
    match dechunk rest with
    | some bs => some (byteOfNat (a * 4 + b / 16) :: byteOfNat (b % 16 * 16 + c / 4)
        :: byteOfNat (c % 4 * 64 + d) :: bs)
    | none => none

/-- Go's `base64.RawURLEncoding.DecodeString` (src/webpush-fcm-relay.go:186):
base64url, no padding accepted, error on an invalid character or on a
final quantum of one character. -/
def b64decode (s : Str) : Option (List Byte) :=
  match b64Vals s with
  | none => none
  | some vs => dechunk vs

/-- Result of `encodedValue` (src/webpush-fcm-relay.go:179-192): a successful
re-encoding, an error (missing key or base64 failure), or the out-of-range
panic propagated from `parseKeyValues`. -/
inductive EVResult where
  | ok (v : Str)
  | err
  | outOfRange
  deriving DecidableEq

/-- Shallow embedding of `encodedValue` (src/webpush-fcm-relay.go:179-192):
parse the header value, locate the key, base64url-decode, re-encode with
`encode85`. -/
def encodedValue (headerVal key : Str) : EVResult :=
  match parseKeyValues headerVal with
  | none => .outOfRange
  | some m =>
    match mlookup m key with
    | none => .err
    | some v =>
      match b64decode v with
      | none => .err
      | some bytes => .ok (encode85 bytes)

example : encodedValue "dh=AAAA".toList "dh".toList = .ok ['0', '0', '0', '0'] := by decide
example : encodedValue "dh".toList "dh".toList = .outOfRange := by decide
example : encodedValue "salt=x".toList "dh".toList = .err := by decide
example : encodedValue "dh=SGVsbG8=".toList "dh".toList
    = .ok (encode85 [72, 101, 108, 108, 111]) := by decide

/-- Go's `strconv.Atoi` (src/webpush-fcm-relay.go:139): optional sign, then
decimal digits, non-empty, within the signed 64-bit range; anything else is
an error. -/
def atoi (s : Str) : Option Int :=
  let signed : Int × Str :=
    match s with
    | '+' :: rest => (1, rest)
    | '-' :: rest => (-1, rest)
    | _ => (1, s)
  let digits := signed.2
  if digits = [] then none
  else if digits.all (fun c => c.isDigit) then
    let v : Nat := digits.foldl (fun a c => a * 10 + (c.toNat - 48)) 0
    let r : Int := signed.1 * v
    if -(2 ^ 63) ≤ r ∧ r ≤ 2 ^ 63 - 1 then some r else none
  else none

/-- Go's conversion `uint(ttl)` on a 64-bit platform: reduction modulo 2^64
(src/webpush-fcm-relay.go:140). -/
def uintOfInt (n : Int) : Nat := (n % (2 ^ 64 : Int)).toNat

example : atoi "42".toList = some 42 := by decide
example : atoi "-1".toList = some (-1) := by decide
example : atoi "".toList = none := by decide
example : atoi "12x".toList = none := by decide
example : atoi "99999999999999999999".toList = none := by decide
example : uintOfInt (-1) = 18446744073709551615 := by decide

/-- An incoming HTTP request as the handler sees it: the URL path, the header
values it reads (Go's `Header.Get` returns `""` for an absent header), and
the raw body bytes. -/
structure HRequest where
  path : Str
  contentEncoding : Str
  cryptoKey : Str
  encryption : Str
  ttl : Str
  topic : Str
  urgency : Str
  body : List Byte
  deriving DecidableEq

/-- The outbound FCM message constructed by the handler
(src/webpush-fcm-relay.go:99-154): target token, the `p`/`x`/`k`/`s` data
entries, the fixed title, optional TTL (a Go `*uint`), collapse key
(zero value `""` when the Topic header is absent) and priority. -/
structure PushMessage where
  To : Str
  p : Str
  x : Option Str
  k : Option Str
  s : Option Str
  title : Str
  timeToLive : Option Nat
  collapseKey : Str
  priority : Str
  deriving DecidableEq

/-- The observable outcome of one request: an HTTP 400 with its message, an
HTTP 415 with its message, a runtime panic (out-of-range slice index), or
HTTP 201 with the message placed on the dispatch channel. -/
inductive HResult where
  | badRequest (msg : Str)
  | unsupportedMediaType (msg : Str)
  | outOfRange
  | queued (m : PushMessage)
  deriving DecidableEq

/-- Data entry `x` (src/webpush-fcm-relay.go:111-113): present whenever the
path has more than 4 components, holding `strings.Join(components[4:], "/")`. -/
def xOf (components : List Str) : Option Str :=
  if components.length > 4 then some (List.intercalate ['/'] (components.drop 4))
  else none

/-- TTL handling (src/webpush-fcm-relay.go:138-143): when the header is
non-empty and parses, `uint(ttl)`; otherwise the field stays nil. -/
def ttlOf (ttlHeader : Str) : Option Nat :=
  if ttlHeader ≠ [] then
    match atoi ttlHeader with
    | some n => some (uintOfInt n)
    | none => none
  else none

/-- Topic handling (src/webpush-fcm-relay.go:145-147): set when non-empty,
otherwise the zero value `""`. -/
def topicOf (topicHeader : Str) : Str :=
  if topicHeader ≠ [] then topicHeader else []

/-- Urgency mapping (src/webpush-fcm-relay.go:149-154). -/
def priorityOf (urgencyHeader : Str) : Str :=
  if urgencyHeader = "very-low".toList ∨ urgencyHeader = "low".toList then "normal".toList
  else "high".toList

/-- Shallow embedding of `handler` (src/webpush-fcm-relay.go:68-166),
mirroring its early returns in order: path split and validation, body
encoding, message construction, the Content-Encoding switch with crypto
header extraction, then TTL, Topic and Urgency. -/
def handler (r : HRequest) : HResult :=
  let components := splitChar '/' r.path
  if components.length < 4 then
    .badRequest "Invalid URL path".toList
  else if components.getD 2 [] ≠ "fcm".toList then
    .badRequest "Invalid target environment".toList
  else
    let deviceToken := components.getD 3 []
    if deviceToken = [] then
      .badRequest "Missing device token".toList
    else
      let encodedString := encode85 r.body
      if r.contentEncoding = "aesgcm".toList then
        match encodedValue r.cryptoKey "dh".toList with
        | .outOfRange => .outOfRange
        | .err => .badRequest "Error retrieving public key".toList
        | .ok publicKey =>
          match encodedValue r.encryption "salt".toList with
          | .outOfRange => .outOfRange
          | .err => .badRequest "Error retrieving salt".toList
          | .ok salt =>
            .queued
              { To := deviceToken
                p := encodedString
                x := xOf components
                k := some publicKey
                s := some salt
                title := ['🎺']
                timeToLive := ttlOf r.ttl
                collapseKey := topicOf r.topic
                priority := priorityOf r.urgency }
      else
        .unsupportedMediaType "Unsupported content encoding".toList

/-- A fully valid request used in several concrete checks below. -/
def reqOK : HRequest :=
  { path := "/relay-to/fcm/TOKEN1/foo/bar".toList
    contentEncoding := "aesgcm".toList
    cryptoKey := "dh=AAAA".toList
    encryption := "salt=BBBB".toList
    ttl := "60".toList
    topic := "t1".toList
    urgency := "low".toList
    body := [255] }

example : handler reqOK = .queued
    { To := "TOKEN1".toList
      p := ['3', '0']
      x := some "foo/bar".toList
      k := some ['0', '0', '0', '0']
      s := some (encode85 (b64decode "BBBB".toList).iget)
      title := ['🎺']
      timeToLive := some 60
      collapseKey := "t1".toList
      priority := "normal".toList } := by decide

example : handler { reqOK with path := "/relay-to/apns/T".toList }
    = .badRequest "Invalid target environment".toList := by decide
example : handler { reqOK with path := "/relay-to/fcm/".toList }
    = .badRequest "Missing device token".toList := by decide
example : handler { reqOK with path := "/x".toList }
    = .badRequest "Invalid URL path".toList := by decide
example : handler { reqOK with contentEncoding := "gzip".toList }
    = .unsupportedMediaType "Unsupported content encoding".toList := by decide
example : handler { reqOK with contentEncoding := [] }
    = .unsupportedMediaType "Unsupported content encoding".toList := by decide
example : handler { reqOK with cryptoKey := "dh".toList } = .outOfRange := by decide
example : handler { reqOK with cryptoKey := "foo=bar".toList }
    = .badRequest "Error retrieving public key".toList := by decide
example : handler { reqOK with encryption := "x=1".toList }
    = .badRequest "Error retrieving salt".toList := by decide

lemma splitChar_ne_nil (sep : Char) (s : Str) : splitChar sep s ≠ [] := by
  induction s with
  | nil => simp [splitChar]
  | cons c cs ih =>
    simp only [splitChar]
    by_cases h : c = sep
    · simp [h]
    · rw [if_neg h]
      rcases hs : splitChar sep cs with _ | ⟨g, gs⟩ <;> simp

lemma splitChar_length (sep : Char) (s : Str) :
    (splitChar sep s).length = s.count sep + 1 := by
  induction s with
  | nil => simp [splitChar]
  | cons c cs ih =>
    simp only [splitChar]
    by_cases h : c = sep
    · rw [if_pos h]
      simp [List.count_cons, h, ih]
    · rw [if_neg h]
      rcases hs : splitChar sep cs with _ | ⟨g, gs⟩
      · exact absurd hs (splitChar_ne_nil sep cs)
      · rw [hs] at ih
        simp only [List.length_cons] at ih ⊢
        simp [List.count_cons, h, ← ih]

lemma mem_iff_splitChar_two (sep : Char) (s : Str) :
    sep ∈ s ↔ 2 ≤ (splitChar sep s).length := by
  rw [splitChar_length, ← List.count_pos_iff]
  omega

lemma splitChar_not_mem {sep : Char} {s : Str} (h : sep ∉ s) : splitChar sep s = [s] := by
  induction s with
  | nil => rfl
  | cons c cs ih =>
    have hc : ¬ c = sep := by rintro rfl; exact h (List.mem_cons_self _ _)
    have hcs : sep ∉ cs := fun m => h (List.mem_cons_of_mem _ m)
    simp only [splitChar, if_neg hc, ih hcs]

lemma splitChar_append {sep : Char} {k : Str} (hk : sep ∉ k) (rest : Str) :
    splitChar sep (k ++ sep :: rest) = k :: splitChar sep rest := by
  induction k with
  | nil => simp [splitChar]
  | cons c cs ih =>
    have hc : ¬ c = sep := by rintro rfl; exact hk (List.mem_cons_self _ _)
    have hcs : sep ∉ cs := fun m => hk (List.mem_cons_of_mem _ m)
    show (if c = sep then [] :: splitChar sep (cs ++ sep :: rest)
        else match splitChar sep (cs ++ sep :: rest) with
          | g :: gs => (c :: g) :: gs
          | [] => [[c]]) = (c :: cs) :: splitChar sep rest
    rw [if_neg hc, ih hcs]

/-- Well-formedness of a semicolon-separated header value: every entry has at
least one `=` — exactly the entries on which `parseKeyValues` does not index
out of range. -/
def entriesWellFormed (values : Str) : Prop := ∀ e ∈ entryList values, '=' ∈ e

instance (values : Str) : Decidable (entriesWellFormed values) := by
  unfold entriesWellFormed
  infer_instance

lemma insertEntries_isSome_iff : ∀ (es : List Str) (m0 : List (Str × Str)),
    (∃ m, insertEntries es m0 = some m) ↔ ∀ e ∈ es, '=' ∈ e
  | [], m0 => by simp [insertEntries]
  | e :: es, m0 => by
    simp only [insertEntries]
    rcases hs : splitChar '=' e with _ | ⟨p0, _ | ⟨p1, t⟩⟩
    · exact absurd hs (splitChar_ne_nil _ _)
    · have hmem : ¬ '=' ∈ e := by
        rw [mem_iff_splitChar_two, hs]
        simp
      simp [hmem]
    · have hmem : '=' ∈ e := by
        rw [mem_iff_splitChar_two, hs]
        simp
      simp [hmem, insertEntries_isSome_iff es (m0 ++ [(p0, p1)])]

lemma parseKeyValues_isSome_iff (values : Str) :
    (∃ m, parseKeyValues values = some m) ↔ entriesWellFormed values :=
  insertEntries_isSome_iff (entryList values) []

/-- The crypto parameter a header carries: parse the header, locate the key,
base64url-decode its value; `none` on any failure. -/
def rawValue (values key : Str) : Option (List Byte) :=
  match parseKeyValues values with
  | none => none
  | some m =>
    match mlookup m key with
    | none => none
    | some v => b64decode v

lemma encodedValue_eq_of_wf {values : Str} (key : Str) (wf : entriesWellFormed values) :
    encodedValue values key =
      match rawValue values key with
      | some bs => .ok (encode85 bs)
      | none => .err := by
  obtain ⟨m, hm⟩ := (parseKeyValues_isSome_iff values).mpr wf
  unfold encodedValue rawValue
  rw [hm]
  show (match mlookup m key with
      | none => EVResult.err
      | some v =>
        match b64decode v with
        | none => EVResult.err
        | some bytes => EVResult.ok (encode85 bytes))
    = match (match mlookup m key with
        | none => none
        | some v => b64decode v) with
      | some bs => EVResult.ok (encode85 bs)
      | none => EVResult.err
  rcases hml : mlookup m key with _ | v
  · rfl
  · show (match b64decode v with
        | none => EVResult.err
        | some bytes => EVResult.ok (encode85 bytes))
      = match b64decode v with
        | some bs => EVResult.ok (encode85 bs)
        | none => EVResult.err
    rcases hbd : b64decode v with _ | bs <;> rfl

/-- The three path checks of the handler (src/webpush-fcm-relay.go:74-93). -/
def pathValid (r : HRequest) : Prop :=
  4 ≤ (splitChar '/' r.path).length
  ∧ (splitChar '/' r.path).getD 2 [] = "fcm".toList
  ∧ (splitChar '/' r.path).getD 3 [] ≠ []

instance (r : HRequest) : Decidable (pathValid r) := by
  unfold pathValid
  infer_instance

lemma handler_path1 (r : HRequest) (h1 : (splitChar '/' r.path).length < 4) :
    handler r = .badRequest "Invalid URL path".toList := by
  simp only [handler]
  rw [if_pos h1]

lemma handler_path2 (r : HRequest) (h1 : ¬ (splitChar '/' r.path).length < 4)
    (h2 : (splitChar '/' r.path).getD 2 [] ≠ "fcm".toList) :
    handler r = .badRequest "Invalid target environment".toList := by
  simp only [handler]
  rw [if_neg h1, if_pos h2]

lemma handler_path3 (r : HRequest) (h1 : ¬ (splitChar '/' r.path).length < 4)
    (h2 : (splitChar '/' r.path).getD 2 [] = "fcm".toList)
    (h3 : (splitChar '/' r.path).getD 3 [] = []) :
    handler r = .badRequest "Missing device token".toList := by
  simp only [handler]
  rw [if_neg h1, if_neg (not_ne_iff.mpr h2), if_pos h3]

lemma handler_umt (r : HRequest) (h1 : ¬ (splitChar '/' r.path).length < 4)
    (h2 : (splitChar '/' r.path).getD 2 [] = "fcm".toList)
    (h3 : (splitChar '/' r.path).getD 3 [] ≠ [])
    (hce : r.contentEncoding ≠ "aesgcm".toList) :
    handler r = .unsupportedMediaType "Unsupported content encoding".toList := by
  simp only [handler]
  rw [if_neg h1, if_neg (not_ne_iff.mpr h2), if_neg h3, if_neg hce]

lemma handler_aesgcm (r : HRequest) (h1 : ¬ (splitChar '/' r.path).length < 4)
    (h2 : (splitChar '/' r.path).getD 2 [] = "fcm".toList)
    (h3 : (splitChar '/' r.path).getD 3 [] ≠ [])
    (hce : r.contentEncoding = "aesgcm".toList) :
    handler r =
      match encodedValue r.cryptoKey "dh".toList with
      | .outOfRange => .outOfRange
      | .err => .badRequest "Error retrieving public key".toList
      | .ok publicKey =>
        match encodedValue r.encryption "salt".toList with
        | .outOfRange => .outOfRange
        | .err => .badRequest "Error retrieving salt".toList
        | .ok salt =>
          .queued
            { To := (splitChar '/' r.path).getD 3 []
              p := encode85 r.body
              x := xOf (splitChar '/' r.path)
              k := some publicKey
              s := some salt
              title := ['🎺']
              timeToLive := ttlOf r.ttl
              collapseKey := topicOf r.topic
              priority := priorityOf r.urgency } := by
  simp only [handler]
  rw [if_neg h1, if_neg (not_ne_iff.mpr h2), if_neg h3, if_pos hce]

/-- Every queued message comes from a request passing all checks, and has
exactly the handler's construction. -/
lemma handler_queued_shape (r : HRequest) (m : PushMessage) (hq : handler r = .queued m) :
    pathValid r ∧ r.contentEncoding = "aesgcm".toList ∧
    ∃ kv sv, encodedValue r.cryptoKey "dh".toList = .ok kv
      ∧ encodedValue r.encryption "salt".toList = .ok sv
      ∧ m = { To := (splitChar '/' r.path).getD 3 []
              p := encode85 r.body
              x := xOf (splitChar '/' r.path)
              k := some kv
              s := some sv
              title := ['🎺']
              timeToLive := ttlOf r.ttl
              collapseKey := topicOf r.topic
              priority := priorityOf r.urgency } := by
  by_cases h1 : (splitChar '/' r.path).length < 4
  · rw [handler_path1 r h1] at hq
    simp at hq
  by_cases h2 : (splitChar '/' r.path).getD 2 [] = "fcm".toList
  case neg =>
    rw [handler_path2 r h1 h2] at hq
    simp at hq
  by_cases h3 : (splitChar '/' r.path).getD 3 [] = []
  · rw [handler_path3 r h1 h2 h3] at hq
    simp at hq
  by_cases hce : r.contentEncoding = "aesgcm".toList
  case neg =>
    rw [handler_umt r h1 h2 h3 hce] at hq
    simp at hq
  rw [handler_aesgcm r h1 h2 h3 hce] at hq
  rcases hdh : encodedValue r.cryptoKey "dh".toList with kv | _ | _ <;> rw [hdh] at hq
  · rcases hsalt : encodedValue r.encryption "salt".toList with sv | _ | _ <;> rw [hsalt] at hq
    · simp only [HResult.queued.injEq] at hq
      exact ⟨⟨Nat.not_lt.mp h1, h2, h3⟩, hce, kv, sv, rfl, rfl, hq.symm⟩
    · simp at hq
    · simp at hq
  · simp at hq
  · simp at hq

/-- Converse: all checks passing yields exactly the handler's message. -/
lemma handler_queued_of (r : HRequest) (hp : pathValid r)
    (hce : r.contentEncoding = "aesgcm".toList) (kv sv : Str)
    (hdh : encodedValue r.cryptoKey "dh".toList = .ok kv)
    (hsalt : encodedValue r.encryption "salt".toList = .ok sv) :
    handler r = .queued
      { To := (splitChar '/' r.path).getD 3 []
        p := encode85 r.body
        x := xOf (splitChar '/' r.path)
        k := some kv
        s := some sv
        title := ['🎺']
        timeToLive := ttlOf r.ttl
        collapseKey := topicOf r.topic
        priority := priorityOf r.urgency } := by
  rw [handler_aesgcm r (Nat.not_lt.mpr hp.1) hp.2.1 hp.2.2 hce, hdh, hsalt]

/-- On a path-valid request the handler ends in one of exactly five ways. -/
lemma handler_pathValid_result (r : HRequest) (hp : pathValid r) :
    handler r = .unsupportedMediaType "Unsupported content encoding".toList
    ∨ handler r = .outOfRange
    ∨ handler r = .badRequest "Error retrieving public key".toList
    ∨ handler r = .badRequest "Error retrieving salt".toList
    ∨ ∃ m, handler r = .queued m := by
  obtain ⟨h1, h2, h3⟩ := hp
  have h1' := Nat.not_lt.mpr h1
  by_cases hce : r.contentEncoding = "aesgcm".toList
  · rw [handler_aesgcm r h1' h2 h3 hce]
    rcases encodedValue r.cryptoKey "dh".toList with kv | _ | _
    · rcases encodedValue r.encryption "salt".toList with sv | _ | _
      · right; right; right; right; exact ⟨_, rfl⟩
      · right; right; right; left; rfl
      · right; left; rfl
    · right; right; left; rfl
    · right; left; rfl
  · left
    exact handler_umt r h1' h2 h3 hce

lemma encodedValue_ok_rawValue {values key kv : Str}
    (h : encodedValue values key = .ok kv) :
    ∃ bs, rawValue values key = some bs ∧ kv = encode85 bs := by
  revert h
  unfold encodedValue rawValue
  rcases hpk : parseKeyValues values with _ | m
  · intro h
    simp at h
  · show (match mlookup m key with
        | none => EVResult.err
        | some v =>
          match b64decode v with
          | none => EVResult.err
          | some bytes => EVResult.ok (encode85 bytes)) = EVResult.ok kv →
      ∃ bs, (match mlookup m key with
        | none => none
        | some v => b64decode v) = some bs ∧ kv = encode85 bs
    rcases hml : mlookup m key with _ | v
    · intro h
      simp at h
    · show (match b64decode v with
          | none => EVResult.err
          | some bytes => EVResult.ok (encode85 bytes)) = EVResult.ok kv →
        ∃ bs, b64decode v = some bs ∧ kv = encode85 bs
      rcases hbd : b64decode v with _ | bytes
      · intro h
        simp at h
      · intro h
        simp only [EVResult.ok.injEq] at h
        exact ⟨bytes, rfl, h.symm⟩

/-- The message the handler queues for `reqOK`, written out. -/
def mOK : PushMessage :=
  { To := "TOKEN1".toList
    p := ['3', '0']
    x := some "foo/bar".toList
    k := some ['0', '0', '0', '0']
    s := some "0A<0".toList
    title := ['🎺']
    timeToLive := some 60
    collapseKey := "t1".toList
    priority := "normal".toList }

example : handler reqOK = .queued mOK := by decide

/-- C4: the handler splits the path on `/` and responds 400 for a path
reason exactly when there are fewer than 4 segments, segment 2 is not
`fcm`, or segment 3 is empty; otherwise segment 3 becomes the device token
and, when more than 4 segments exist, segments 4.. joined with `/` become
the extra data entry `x`. -/
theorem path_validation_law (r : HRequest) :
    ((handler r = .badRequest "Invalid URL path".toList
        ∨ handler r = .badRequest "Invalid target environment".toList
        ∨ handler r = .badRequest "Missing device token".toList)
      ↔ ((splitChar '/' r.path).length < 4
        ∨ (splitChar '/' r.path).getD 2 [] ≠ "fcm".toList
        ∨ (splitChar '/' r.path).getD 3 [] = []))
    ∧ ∀ m : PushMessage, handler r = .queued m →
        m.To = (splitChar '/' r.path).getD 3 []
        ∧ ((splitChar '/' r.path).length > 4 →
            m.x = some (List.intercalate ['/'] ((splitChar '/' r.path).drop 4))) := by
  constructor
  · constructor
    · intro h
      by_contra hc
      push_neg at hc
      obtain ⟨hc1, hc2, hc3⟩ := hc
      have hres := handler_pathValid_result r ⟨hc1, hc2, hc3⟩
      rcases hres with h5 | h5 | h5 | h5 | ⟨m, h5⟩ <;>
        rcases h with h | h | h <;>
        rw [h5] at h <;>
        first
        | exact absurd h (by decide)
        | simp at h
    · intro hcond
      by_cases h1 : (splitChar '/' r.path).length < 4
      · exact Or.inl (handler_path1 r h1)
      by_cases h2 : (splitChar '/' r.path).getD 2 [] = "fcm".toList
      case neg => exact Or.inr (Or.inl (handler_path2 r h1 h2))
      rcases hcond with hc | hc | hc
      · exact absurd hc h1
      · exact absurd h2 hc
      · exact Or.inr (Or.inr (handler_path3 r h1 h2 hc))
  · intro m hq
    obtain ⟨hp, hce, kv, sv, hdh, hsalt, hm⟩ := handler_queued_shape r m hq
    subst hm
    refine ⟨rfl, fun hgt => ?_⟩
    show xOf (splitChar '/' r.path) = _
    unfold xOf
    rw [if_pos hgt]

/-- C4 witness: a concrete valid request with an extra path suffix. -/
theorem path_validation_witness :
    mOK.To = "TOKEN1".toList ∧ mOK.x = some "foo/bar".toList := by
  have h := (path_validation_law reqOK).2 mOK (by decide)
  exact ⟨h.1.trans (by decide), (h.2 (by decide)).trans (by decide)⟩

/-- C5: for path-valid requests, the handler responds 415 exactly when the
Content-Encoding header differs from the literal `aesgcm` (including when
absent, i.e. `""`), and no message is queued in that case. -/
theorem content_encoding_law (r : HRequest) (hp : pathValid r) :
    (handler r = .unsupportedMediaType "Unsupported content encoding".toList
      ↔ r.contentEncoding ≠ "aesgcm".toList)
    ∧ ∀ m : PushMessage, r.contentEncoding ≠ "aesgcm".toList → handler r ≠ .queued m := by
  obtain ⟨h1, h2, h3⟩ := hp
  have h1' := Nat.not_lt.mpr h1
  constructor
  · constructor
    · intro h hce
      rw [handler_aesgcm r h1' h2 h3 hce] at h
      rcases hdh : encodedValue r.cryptoKey "dh".toList with kv | _ | _ <;> rw [hdh] at h
      · rcases hsalt : encodedValue r.encryption "salt".toList with sv | _ | _ <;>
          rw [hsalt] at h <;> simp at h
      · simp at h
      · simp at h
    · intro hce
      exact handler_umt r h1' h2 h3 hce
  · intro m hce hq
    rw [handler_umt r h1' h2 h3 hce] at hq
    simp at hq

/-- C5 witness: a gzip-encoded request on a valid path gets 415. -/
theorem content_encoding_witness :
    handler { reqOK with contentEncoding := "gzip".toList }
      = .unsupportedMediaType "Unsupported content encoding".toList :=
  (content_encoding_law { reqOK with contentEncoding := "gzip".toList }
    (by decide)).1.mpr (by decide)

/-- C6 (amended): every queued message carries the encoded body under `p`,
the encoded dh key under `k`, the encoded salt under `s`, the fixed title,
and the entry `x` is present exactly when the path has more than 4
segments — even when the joined suffix is empty. -/
theorem message_data_law (r : HRequest) (m : PushMessage) (hq : handler r = .queued m) :
    m.p = encode85 r.body
    ∧ m.title = ['🎺']
    ∧ (∀ dh, rawValue r.cryptoKey "dh".toList = some dh → m.k = some (encode85 dh))
    ∧ (∀ salt, rawValue r.encryption "salt".toList = some salt → m.s = some (encode85 salt))
    ∧ (m.x ≠ none ↔ (splitChar '/' r.path).length > 4)
    ∧ ((splitChar '/' r.path).length > 4 →
        m.x = some (List.intercalate ['/'] ((splitChar '/' r.path).drop 4))) := by
  obtain ⟨hp, hce, kv, sv, hdh, hsalt, hm⟩ := handler_queued_shape r m hq
  subst hm
  refine ⟨rfl, rfl, ?_, ?_, ?_, ?_⟩
  · intro dh hraw
    obtain ⟨bs, hbs, hkv⟩ := encodedValue_ok_rawValue hdh
    have hbd : bs = dh := by
      rw [hbs] at hraw
      exact Option.some.inj hraw
    subst hbd
    show some kv = some (encode85 bs)
    rw [hkv]
  · intro salt hraw
    obtain ⟨bs, hbs, hsv⟩ := encodedValue_ok_rawValue hsalt
    have hbd : bs = salt := by
      rw [hbs] at hraw
      exact Option.some.inj hraw
    subst hbd
    show some sv = some (encode85 bs)
    rw [hsv]
  · show xOf (splitChar '/' r.path) ≠ none ↔ _
    unfold xOf
    by_cases hlen : (splitChar '/' r.path).length > 4 <;> simp [hlen]
  · intro hgt
    show xOf (splitChar '/' r.path) = _
    unfold xOf
    rw [if_pos hgt]

/-- C6 witness: a concrete valid request exercising the law. -/
theorem message_data_witness :
    mOK.p = encode85 reqOK.body ∧ mOK.title = ['🎺']
      ∧ mOK.k = some (encode85 [0, 0, 0]) := by
  have h := message_data_law reqOK mOK (by decide)
  exact ⟨h.1, h.2.1, h.2.2.1 [0, 0, 0] (by decide)⟩

/-- Projection used to state closed counterexamples about a queued
message's `x` entry. -/
def queuedX : HResult → Option (Option Str)
  | .queued m => some m.x
  | _ => none

/-- A valid request whose path ends in `/`: more than 4 segments, but the
joined extra suffix is empty. -/
def reqSlash : HRequest := { reqOK with path := "/relay-to/fcm/tok/".toList }

/-- C6 counterexample: for the path `/relay-to/fcm/tok/` the extra string
(segments 4.. joined) is empty, yet the queued message still carries the
entry `x` (holding the empty string) — refuting that `x` is present exactly
when the extra string is non-empty. -/
theorem message_data_counterexample :
    (splitChar '/' reqSlash.path).length > 4
    ∧ List.intercalate ['/'] ((splitChar '/' reqSlash.path).drop 4) = []
    ∧ queuedX (handler reqSlash) = some (some []) := by decide

lemma atoi_range {s : Str} {n : Int} (h : atoi s = some n) :
    -(2 ^ 63) ≤ n ∧ n ≤ 2 ^ 63 - 1 := by
  simp only [atoi] at h
  split at h
  · exact absurd h (by simp)
  · split at h
    · split at h
      next hc =>
        obtain rfl : _ = n := Option.some.inj h
        exact hc
      next hc => exact absurd h (by simp)
    · exact absurd h (by simp)

lemma uintOfInt_of_nonneg {n : Int} (h0 : 0 ≤ n) (h1 : n < 2 ^ 64) :
    uintOfInt n = n.toNat := by
  unfold uintOfInt
  rw [Int.emod_eq_of_lt h0 h1]

/-- C7 (amended): for every queued message, a TTL header that parses as a
base-10 integer `n` sets the time-to-live to `uint(n)` — `n mod 2^64`,
which equals `n` seconds exactly when `n` is non-negative; a TTL header
that fails to parse leaves the time-to-live unset, and the TTL header never
affects whether the request is accepted. -/
theorem ttl_law (r : HRequest) (m : PushMessage) (hq : handler r = .queued m) :
    (∀ n : Int, atoi r.ttl = some n →
        m.timeToLive = some (uintOfInt n) ∧ (0 ≤ n → m.timeToLive = some n.toNat))
    ∧ (atoi r.ttl = none → m.timeToLive = none)
    ∧ (∀ t : Str, ∃ m2, handler { r with ttl := t } = .queued m2) := by
  obtain ⟨hp, hce, kv, sv, hdh, hsalt, hm⟩ := handler_queued_shape r m hq
  subst hm
  refine ⟨?_, ?_, ?_⟩
  · intro n hn
    have hne : r.ttl ≠ [] := by
      intro he
      rw [he] at hn
      simp [atoi] at hn
    constructor
    · show ttlOf r.ttl = some (uintOfInt n)
      unfold ttlOf
      rw [if_pos hne, hn]
    · intro hnn
      show ttlOf r.ttl = some n.toNat
      unfold ttlOf
      rw [if_pos hne, hn]
      have hrange := atoi_range hn
      show some (uintOfInt n) = some n.toNat
      rw [uintOfInt_of_nonneg hnn (by omega)]
  · intro hn
    show ttlOf r.ttl = none
    unfold ttlOf
    by_cases hne : r.ttl ≠ []
    · rw [if_pos hne, hn]
    · rw [if_neg hne]
  · intro t
    exact ⟨_, handler_queued_of { r with ttl := t } hp hce kv sv hdh hsalt⟩

/-- C7 witness: TTL `60` parses and lands as 60 seconds. -/
theorem ttl_law_witness :
    atoi "60".toList = some 60 ∧ mOK.timeToLive = some (uintOfInt 60) :=
  ⟨by decide, ((ttl_law reqOK mOK (by decide)).1 60 (by decide)).1⟩

/-- Projection used to state closed counterexamples about a queued
message's time-to-live. -/
def queuedTTL : HResult → Option (Option Nat)
  | .queued m => some m.timeToLive
  | _ => none

/-- A valid request with the header `TTL: -1`. -/
def reqNeg : HRequest := { reqOK with ttl := "-1".toList }

/-- C7 counterexample: `TTL: -1` parses as the integer -1 — a base-10
integer — yet the message's time-to-live becomes 2^64 - 1, not "that many
seconds"; the request is still accepted. -/
theorem ttl_counterexample :
    atoi "-1".toList = some (-1)
    ∧ queuedTTL (handler reqNeg) = some (some 18446744073709551615) := by decide

/-- C8: a queued message has priority `normal` exactly when the Urgency
header is `very-low` or `low`, and `high` for every other value, including
the absent header (`""`). -/
theorem urgency_law (r : HRequest) (m : PushMessage) (hq : handler r = .queued m) :
    (m.priority = "normal".toList
      ↔ (r.urgency = "very-low".toList ∨ r.urgency = "low".toList))
    ∧ (¬ (r.urgency = "very-low".toList ∨ r.urgency = "low".toList) →
        m.priority = "high".toList) := by
  obtain ⟨hp, hce, kv, sv, hdh, hsalt, hm⟩ := handler_queued_shape r m hq
  subst hm
  constructor
  · show priorityOf r.urgency = "normal".toList ↔ _
    unfold priorityOf
    by_cases hu : r.urgency = "very-low".toList ∨ r.urgency = "low".toList
    · rw [if_pos hu]
      exact ⟨fun _ => hu, fun _ => rfl⟩
    · rw [if_neg hu]
      constructor
      · intro habs
        exact absurd habs (by decide)
      · intro habs
        exact absurd habs hu
  · intro hu
    show priorityOf r.urgency = "high".toList
    unfold priorityOf
    rw [if_neg hu]

/-- C8 witness: `Urgency: low` yields priority `normal`. -/
theorem urgency_law_witness : mOK.priority = "normal".toList :=
  (urgency_law reqOK mOK (by decide)).1.mpr (Or.inr (by decide))

/-- C3 (amended): on a path-valid aesgcm request whose crypto headers have
only well-formed entries (each containing `=`), extraction yields a 400
naming the public key exactly when the dh parameter is missing or fails to
decode, a 400 naming the salt exactly when dh succeeds but the salt
parameter is missing or fails to decode, never any other failure, and on
success the decoded bytes are re-encoded with encode85 into the data
entries k and s.  (An entry without `=` is not covered: it makes the code
index out of range instead of returning 400.) -/
theorem crypto_extraction_law (r : HRequest)
    (hp : pathValid r) (hce : r.contentEncoding = "aesgcm".toList)
    (hck : entriesWellFormed r.cryptoKey) (henc : entriesWellFormed r.encryption) :
    (handler r = .badRequest "Error retrieving public key".toList
      ↔ rawValue r.cryptoKey "dh".toList = none)
    ∧ (handler r = .badRequest "Error retrieving salt".toList
      ↔ rawValue r.cryptoKey "dh".toList ≠ none
        ∧ rawValue r.encryption "salt".toList = none)
    ∧ handler r ≠ .outOfRange
    ∧ (∀ msg, handler r = .badRequest msg →
        msg = "Error retrieving public key".toList
        ∨ msg = "Error retrieving salt".toList)
    ∧ (∀ dh salt, rawValue r.cryptoKey "dh".toList = some dh →
        rawValue r.encryption "salt".toList = some salt →
        ∃ m, handler r = .queued m
          ∧ m.k = some (encode85 dh) ∧ m.s = some (encode85 salt)) := by
  have hmsg : "Error retrieving public key".toList ≠ "Error retrieving salt".toList := by
    decide
  have hh := handler_aesgcm r (Nat.not_lt.mpr hp.1) hp.2.1 hp.2.2 hce
  rw [encodedValue_eq_of_wf "dh".toList hck,
    encodedValue_eq_of_wf "salt".toList henc] at hh
  rcases hdh : rawValue r.cryptoKey "dh".toList with _ | dh <;> rw [hdh] at hh
  · have hh2 : handler r = .badRequest "Error retrieving public key".toList := hh
    refine ⟨⟨fun _ => rfl, fun _ => hh2⟩, ?_, ?_, ?_, ?_⟩
    · constructor
      · intro habs
        rw [hh2] at habs
        simp only [HResult.badRequest.injEq] at habs
        exact absurd habs hmsg
      · rintro ⟨habs, _⟩
        exact absurd rfl habs
    · rw [hh2]
      simp
    · intro msg hmsgeq
      rw [hh2] at hmsgeq
      simp only [HResult.badRequest.injEq] at hmsgeq
      exact Or.inl hmsgeq.symm
    · intro dh salt h1 h2
      exact absurd h1 (by simp)
  · rcases hsalt : rawValue r.encryption "salt".toList with _ | salt <;> rw [hsalt] at hh
    · have hh2 : handler r = .badRequest "Error retrieving salt".toList := hh
      refine ⟨?_, ⟨fun _ => ⟨by simp, rfl⟩, fun _ => hh2⟩, ?_, ?_, ?_⟩
      · constructor
        · intro habs
          rw [hh2] at habs
          simp only [HResult.badRequest.injEq] at habs
          exact absurd habs.symm hmsg
        · intro habs
          exact absurd habs (by simp)
      · rw [hh2]
        simp
      · intro msg hm2
        rw [hh2] at hm2
        simp only [HResult.badRequest.injEq] at hm2
        exact Or.inr hm2.symm
      · intro dh' salt' h1 h2
        exact absurd h2 (by simp)
    · have hh2 : handler r = .queued
          { To := (splitChar '/' r.path).getD 3 []
            p := encode85 r.body
            x := xOf (splitChar '/' r.path)
            k := some (encode85 dh)
            s := some (encode85 salt)
            title := ['🎺']
            timeToLive := ttlOf r.ttl
            collapseKey := topicOf r.topic
            priority := priorityOf r.urgency } := hh
      refine ⟨?_, ?_, ?_, ?_, ?_⟩
      · constructor
        · intro habs
          rw [hh2] at habs
          exact absurd habs (by simp)
        · intro habs
          exact absurd habs (by simp)
      · constructor
        · intro habs
          rw [hh2] at habs
          exact absurd habs (by simp)
        · rintro ⟨_, habs⟩
          exact absurd habs (by simp)
      · rw [hh2]
        simp
      · intro msg hm2
        rw [hh2] at hm2
        exact absurd hm2 (by simp)
      · intro dh' salt' h1 h2
        obtain rfl : dh = dh' := Option.some.inj h1
        obtain rfl : salt = salt' := Option.some.inj h2
        exact ⟨_, hh2, rfl, rfl⟩

/-- C3 witness: a request with decodable dh and salt parameters queues a
message carrying both re-encodings. -/
theorem crypto_extraction_witness :
    ∃ m, handler reqOK = .queued m
      ∧ m.k = some (encode85 [0, 0, 0]) ∧ m.s = some (encode85 [4, 16, 65]) :=
  (crypto_extraction_law reqOK (by decide) (by decide) (by decide) (by decide)).2.2.2.2
    [0, 0, 0] [4, 16, 65] (by decide) (by decide)

/-- A path-valid aesgcm request whose Crypto-Key entry has no `=`. -/
def reqMalformed : HRequest := { reqOK with cryptoKey := "dh".toList }

/-- C3 counterexample: with Content-Encoding aesgcm and a Crypto-Key header
whose entry `dh` contains no `=`, extraction does not return a BadRequest —
the code's `parts[1]` is an out-of-range index (a Go panic), another
failure mode. -/
theorem crypto_extraction_counterexample :
    reqMalformed.contentEncoding = "aesgcm".toList
    ∧ handler reqMalformed = .outOfRange := by decide

/-- C10: a header entry `key=value1=value2` maps the key to exactly the text
between the first and second `=`; in particular `dh=SGVsbG8=` (trailing
base64 padding) yields the value `SGVsbG8`, which still decodes (to
`Hello`) instead of being rejected. -/
theorem parseKeyValues_first_value (k v1 rest : Str)
    (hk : '=' ∉ k) (hv : '=' ∉ v1)
    (hks : ';' ∉ k) (hvs : ';' ∉ v1) (hrs : ';' ∉ rest) :
    parseKeyValues (k ++ ('=' :: (v1 ++ ('=' :: rest)))) = some [(k, v1)]
    ∧ mlookup [(k, v1)] k = some v1
    ∧ encodedValue "dh=SGVsbG8=".toList "dh".toList
        = .ok (encode85 [72, 101, 108, 108, 111]) := by
  refine ⟨?_, ?_, by decide⟩
  · have hsemi : ';' ∉ k ++ ('=' :: (v1 ++ ('=' :: rest))) := by
      intro hmem
      rcases List.mem_append.mp hmem with h | h
      · exact hks h
      · rcases List.mem_cons.mp h with h | h
        · exact absurd h (by decide)
        · rcases List.mem_append.mp h with h | h
          · exact hvs h
          · rcases List.mem_cons.mp h with h | h
            · exact absurd h (by decide)
            · exact hrs h
    have hne : k ++ ('=' :: (v1 ++ ('=' :: rest))) ≠ [] := by simp
    unfold parseKeyValues entryList
    rw [splitChar_not_mem hsemi]
    rw [List.filter_cons, if_pos (by simp), List.filter_nil]
    show insertEntries [k ++ ('=' :: (v1 ++ ('=' :: rest)))] [] = some [(k, v1)]
    unfold insertEntries
    rw [splitChar_append hk, splitChar_append hv]
    rfl
  · show (if k = k then some v1 else none) = some v1
    rw [if_pos rfl]

/-- C10 witness: the claim's own example entry. -/
theorem parseKeyValues_first_value_witness :
    parseKeyValues "dh=SGVsbG8=".toList = some [("dh".toList, "SGVsbG8".toList)]
    ∧ mlookup [("dh".toList, "SGVsbG8".toList)] "dh".toList = some "SGVsbG8".toList := by
  have harg : "dh=SGVsbG8=".toList
      = "dh".toList ++ ('=' :: ("SGVsbG8".toList ++ ('=' :: []))) := by decide
  have h := parseKeyValues_first_value "dh".toList "SGVsbG8".toList []
    (by decide) (by decide) (by decide) (by decide) (by decide)
  constructor
  · rw [harg]
    exact h.1
  · exact h.2.1

end Relay
